import Mathlib

/-
Verification of the 4d-rendering repository core.

The math crate builds its algebra with a geometric-algebra DSL over the five
generators e0, e1, e2, e3, e4, where e0 squares to zero and e1..e4 square
to one.  We embed that algebra shallowly: a multivector is a coefficient
function on blade bitmasks (bit i set means generator ei occurs in the
blade), and every product is given by the standard structure constants of
the Clifford algebra Cl(4,0,1).  The Rotor and Transform groups of the DSL
become Lean structures whose fields are, in declaration order, exactly the
fields of the generated Rust structs, and each generated function
(rotor_then, rotor_reverse, rotor_squared_magnitude, transform_point, ...)
is translated from its DSL body.

The rendering crate's buffer-growth policy, hypersphere upload procedure,
view-axis selection and render-target resizing are modelled as pure
functions over natural-number state, mirroring src/rendering/src/lib.rs and
src/rendering/src/render_target.rs statement by statement.
-/

noncomputable section

namespace FourDR

/-- Number of generators appearing in the blade with bitmask n (its grade). -/
def gradeOf (n : ℕ) : ℕ := ((List.range 5).filter n.testBit).length

/-- Number of set bits of a strictly above position j. -/
def bitsAbove (a j : ℕ) : ℕ := ((List.range 5).filter (fun i => j < i && a.testBit i)).length

/-- Number of transpositions needed to merge the ascending blade b into the
ascending blade a when forming their product. -/
def swapCount (a b : ℕ) : ℕ :=
  (((List.range 5).filter b.testBit).map (bitsAbove a)).sum

/-- Structure constant of the geometric product of two basis blades: the
product of blades a and b is geomCoef a b times the blade with bitmask
a ^^^ b.  It vanishes when both blades contain the degenerate generator e0
(bit 0), and otherwise is the reordering sign; the shared generators e1..e4
square to one. -/
def geomCoef (a b : ℕ) : ℤ :=
  if a % 2 = 1 ∧ b % 2 = 1 then 0
  else if swapCount a b % 2 = 1 then -1 else 1

/-- Structure constant of the wedge (outer) product: zero unless the blades
are disjoint, in which case it agrees with the geometric product. -/
def wedgeCoef (a b : ℕ) : ℤ := if a &&& b = 0 then geomCoef a b else 0

/-- Structure constant of the symmetric inner product: the grade
abs (gradeOf a - gradeOf b) part of the geometric product of the blades. -/
def innerCoef (a b : ℕ) : ℤ :=
  if gradeOf (a ^^^ b) = max (gradeOf a) (gradeOf b) - min (gradeOf a) (gradeOf b) then
    geomCoef a b
  else 0

/-- Sign of grade reversal on a blade of bitmask n. -/
def revSign (n : ℕ) : ℤ := if (gradeOf n * (gradeOf n - 1) / 2) % 2 = 1 then -1 else 1

/-- A multivector of the 32-dimensional algebra: a real coefficient for each
blade bitmask below 32 (indices 32 and above are unused and all our
constructions vanish there). -/
abbrev MV : Type := ℕ → ℝ

/-- The basis blade with bitmask i. -/
def bas (i : ℕ) : MV := fun k => if k = i then 1 else 0

/-- Generic bilinear product with structure-constant family co: blades
multiply by e_a * e_b = co a b * e_(a ^^^ b). -/
def mulC (co : ℕ → ℕ → ℤ) (x y : MV) : MV := fun k =>
  ∑ a ∈ Finset.range 32, ∑ b ∈ Finset.range 32,
    if a ^^^ b = k then (co a b : ℝ) * x a * y b else 0

/-- Geometric product (the DSL operator *). -/
def gp (x y : MV) : MV := mulC geomCoef x y

/-- Wedge product (the DSL operator ^). -/
def wedgeP (x y : MV) : MV := mulC wedgeCoef x y

/-- Symmetric inner product (the DSL operator |). -/
def innerP (x y : MV) : MV := mulC innerCoef x y

/-- Grade reversal (the DSL operator ~), acting blade by blade. -/
def revMV (x : MV) : MV := fun k => (revSign k : ℝ) * x k

/-- Poincare dual: the component at blade S moves to the complementary blade
with the sign making e_S wedge dual e_S the pseudoscalar e0e1e2e3e4. -/
def dualMV (x : MV) : MV := fun k => (wedgeCoef (31 ^^^ k) k : ℝ) * x (31 ^^^ k)

/-- Inverse of the Poincare dual. -/
def undualMV (x : MV) : MV := fun k => (wedgeCoef k (31 ^^^ k) : ℝ) * x (31 ^^^ k)

/-- Regressive (join) product (the DSL operator &), defined through duality. -/
def regr (x y : MV) : MV := undualMV (wedgeP (dualMV x) (dualMV y))

/-- The scalar one of the algebra (the DSL literal 1). -/
def oneMV : MV := bas 0

/-- Basis vector e0 (bitmask 1). -/
def e0v : MV := bas 1

/-- Basis vector e1 (bitmask 2). -/
def e1v : MV := bas 2

/-- Basis vector e2 (bitmask 4). -/
def e2v : MV := bas 4

/-- Basis vector e3 (bitmask 8). -/
def e3v : MV := bas 8

/-- Basis vector e4 (bitmask 16). -/
def e4v : MV := bas 16

/-- A four-component vector of reals, mirroring cgmath::Vector4 of f32. -/
structure Vector4 where
  x : ℝ
  y : ℝ
  z : ℝ
  w : ℝ

/-- A three-component vector of reals, mirroring cgmath::Vector3 of f32. -/
structure Vector3 where
  x : ℝ
  y : ℝ
  z : ℝ

/-- The Rotor group of the DSL: Scalar + VgaBivector + VgaQuadvector, with
fields in the generated declaration order. -/
structure Rotor where
  s : ℝ
  e1e2 : ℝ
  e1e3 : ℝ
  e1e4 : ℝ
  e2e3 : ℝ
  e2e4 : ℝ
  e3e4 : ℝ
  e1e2e3e4 : ℝ

/-- The multivector carried by a Rotor value: each field sits on its blade
(s on blade 0, e1e2 on bitmask 6, e1e3 on 10, e1e4 on 18, e2e3 on 12,
e2e4 on 20, e3e4 on 24, e1e2e3e4 on 30). -/
def Rotor.toMV (r : Rotor) : MV :=
  r.s • bas 0 + r.e1e2 • bas 6 + r.e1e3 • bas 10 + r.e1e4 • bas 18 +
  r.e2e3 • bas 12 + r.e2e4 • bas 20 + r.e3e4 • bas 24 + r.e1e2e3e4 • bas 30

/-- Projection of a multivector onto the Rotor group components. -/
def MV.toRotor (x : MV) : Rotor :=
  ⟨x 0, x 6, x 10, x 18, x 12, x 20, x 24, x 30⟩

/-- The RotorSquaredMagnitude group of the DSL: Scalar + VgaQuadvector. -/
structure RotorSquaredMagnitude where
  s : ℝ
  e1e2e3e4 : ℝ

/-- The multivector one as a RotorSquaredMagnitude value: scalar part one,
quadvector part zero. -/
def RotorSquaredMagnitude.one : RotorSquaredMagnitude := ⟨1, 0⟩

/-- DSL function rotor_squared_magnitude: the product ~rotor * rotor,
projected onto the Scalar + VgaQuadvector group. -/
def rotor_squared_magnitude (rotor : Rotor) : RotorSquaredMagnitude :=
  ⟨gp (revMV rotor.toMV) rotor.toMV 0, gp (revMV rotor.toMV) rotor.toMV 30⟩

/-- DSL function rotor_then: the geometric product a * b projected back onto
the Rotor group (Rotor::then delegates to it). -/
def rotor_then (a b : Rotor) : Rotor := MV.toRotor (gp a.toMV b.toMV)

/-- DSL function rotor_reverse: grade reversal ~rotor projected back onto
the Rotor group (Rotor::reverse delegates to it). -/
def rotor_reverse (rotor : Rotor) : Rotor := MV.toRotor (revMV rotor.toMV)

/-- Rotor::identity, scalar one and every other component zero. -/
def Rotor.identity : Rotor := ⟨1, 0, 0, 0, 0, 0, 0, 0⟩

/-- Rotor::rotate_xy: the half-angle rotor cos(angle/2) + sin(angle/2) e1e2. -/
def Rotor.rotate_xy (angle : ℝ) : Rotor :=
  ⟨Real.cos (angle * 0.5), Real.sin (angle * 0.5), 0, 0, 0, 0, 0, 0⟩

/-- Rotor::rotate_xz: the half-angle rotor on the e1e3 plane. -/
def Rotor.rotate_xz (angle : ℝ) : Rotor :=
  ⟨Real.cos (angle * 0.5), 0, Real.sin (angle * 0.5), 0, 0, 0, 0, 0⟩

/-- Rotor::rotate_xw: the half-angle rotor on the e1e4 plane. -/
def Rotor.rotate_xw (angle : ℝ) : Rotor :=
  ⟨Real.cos (angle * 0.5), 0, 0, Real.sin (angle * 0.5), 0, 0, 0, 0⟩

/-- Rotor::rotate_yz: the half-angle rotor on the e2e3 plane. -/
def Rotor.rotate_yz (angle : ℝ) : Rotor :=
  ⟨Real.cos (angle * 0.5), 0, 0, 0, Real.sin (angle * 0.5), 0, 0, 0⟩

/-- Rotor::rotate_yw: the half-angle rotor on the e2e4 plane. -/
def Rotor.rotate_yw (angle : ℝ) : Rotor :=
  ⟨Real.cos (angle * 0.5), 0, 0, 0, 0, Real.sin (angle * 0.5), 0, 0⟩

/-- Rotor::rotate_zw: the half-angle rotor on the e3e4 plane. -/
def Rotor.rotate_zw (angle : ℝ) : Rotor :=
  ⟨Real.cos (angle * 0.5), 0, 0, 0, 0, 0, Real.sin (angle * 0.5), 0⟩

/-- DSL function rotate_direction: encode the direction as the point at
infinity obtained by joining the projective point to the origin and meeting
the hyperplane at infinity, conjugate it through the rotor, add the
assume-normalised correction term, and extract the four coordinates with
the regressive product against e1..e4. -/
def rotate_direction (rotor : Rotor) (x y z w : ℝ) : Vector4 :=
  let xv := e1v - x • e0v
  let yv := e2v - y • e0v
  let zv := e3v - z • e0v
  let wv := e4v - w • e0v
  let origin := wedgeP (wedgeP (wedgeP e1v e2v) e3v) e4v
  let point := wedgeP (regr origin (wedgeP (wedgeP (wedgeP xv yv) zv) wv)) e0v
  let transformed := gp (gp (revMV rotor.toMV) point) rotor.toMV
  let assume_normalised_rotor := innerP point (oneMV - gp (revMV rotor.toMV) rotor.toMV)
  let result := transformed + assume_normalised_rotor
  ⟨regr result e1v 0, regr result e2v 0, regr result e3v 0, regr result e4v 0⟩

/-- DSL function rotor_x: rotate_direction's body with the literal direction
(1, 0, 0, 0) inlined. -/
def rotor_x (rotor : Rotor) : Vector4 := rotate_direction rotor 1 0 0 0

/-- DSL function rotor_y: rotate_direction's body with direction (0,1,0,0). -/
def rotor_y (rotor : Rotor) : Vector4 := rotate_direction rotor 0 1 0 0

/-- DSL function rotor_z: rotate_direction's body with direction (0,0,1,0). -/
def rotor_z (rotor : Rotor) : Vector4 := rotate_direction rotor 0 0 1 0

/-- DSL function rotor_w: rotate_direction's body with direction (0,0,0,1). -/
def rotor_w (rotor : Rotor) : Vector4 := rotate_direction rotor 0 0 0 1

/-- Rotor::transform_direction. -/
def Rotor.transform_direction (r : Rotor) (direction : Vector4) : Vector4 :=
  rotate_direction r direction.x direction.y direction.z direction.w

/-- Rotor::forward, the image of the x axis. -/
def Rotor.forward (r : Rotor) : Vector4 := rotor_x r

/-- Rotor::up, the image of the y axis. -/
def Rotor.up (r : Rotor) : Vector4 := rotor_y r

/-- Rotor::right, the image of the z axis. -/
def Rotor.right (r : Rotor) : Vector4 := rotor_z r

/-- Rotor::ana, the image of the w axis. -/
def Rotor.ana (r : Rotor) : Vector4 := rotor_w r

/-- The Transform (motor) group of the DSL: Scalar + PgaBivector +
PgaQuadvector, sixteen fields in the generated declaration order. -/
structure Transform where
  s : ℝ
  e0e1 : ℝ
  e0e2 : ℝ
  e0e3 : ℝ
  e0e4 : ℝ
  e1e2 : ℝ
  e1e3 : ℝ
  e1e4 : ℝ
  e2e3 : ℝ
  e2e4 : ℝ
  e3e4 : ℝ
  e0e1e2e3 : ℝ
  e0e1e2e4 : ℝ
  e0e1e3e4 : ℝ
  e0e2e3e4 : ℝ
  e1e2e3e4 : ℝ

/-- The multivector carried by a Transform value (blade bitmasks: e0e1 is 3,
e0e2 is 5, e0e3 is 9, e0e4 is 17, e0e1e2e3 is 15, e0e1e2e4 is 23,
e0e1e3e4 is 27, e0e2e3e4 is 29, and the Rotor blades as before). -/
def Transform.toMV (t : Transform) : MV :=
  t.s • bas 0 + t.e0e1 • bas 3 + t.e0e2 • bas 5 + t.e0e3 • bas 9 + t.e0e4 • bas 17 +
  t.e1e2 • bas 6 + t.e1e3 • bas 10 + t.e1e4 • bas 18 + t.e2e3 • bas 12 +
  t.e2e4 • bas 20 + t.e3e4 • bas 24 + t.e0e1e2e3 • bas 15 + t.e0e1e2e4 • bas 23 +
  t.e0e1e3e4 • bas 27 + t.e0e2e3e4 • bas 29 + t.e1e2e3e4 • bas 30

/-- The TransformSquaredMagnitude group of the DSL: Scalar + PgaQuadvector. -/
structure TransformSquaredMagnitude where
  s : ℝ
  e0e1e2e3 : ℝ
  e0e1e2e4 : ℝ
  e0e1e3e4 : ℝ
  e0e2e3e4 : ℝ
  e1e2e3e4 : ℝ

/-- The multivector one as a TransformSquaredMagnitude value: scalar part
one, every quadvector part zero. -/
def TransformSquaredMagnitude.one : TransformSquaredMagnitude := ⟨1, 0, 0, 0, 0, 0⟩

/-- DSL function transform_squared_magnitude: ~transform * transform,
projected onto Scalar + PgaQuadvector. -/
def transform_squared_magnitude (transform : Transform) : TransformSquaredMagnitude :=
  ⟨gp (revMV transform.toMV) transform.toMV 0,
   gp (revMV transform.toMV) transform.toMV 15,
   gp (revMV transform.toMV) transform.toMV 23,
   gp (revMV transform.toMV) transform.toMV 27,
   gp (revMV transform.toMV) transform.toMV 29,
   gp (revMV transform.toMV) transform.toMV 30⟩

/-- The projective point of coordinates (x, y, z, w): the wedge of the four
displaced hyperplanes ei - coordinate * e0 from the DSL bodies. -/
def pgaPoint (p : Vector4) : MV :=
  wedgeP (wedgeP (wedgeP (e1v - p.x • e0v) (e2v - p.y • e0v)) (e3v - p.z • e0v))
    (e4v - p.w • e0v)

/-- DSL function transform_point (Transform::transform_point delegates to
it): conjugate the projective point through the motor, add the
assume-normalised correction term point | (1 - ~T * T), and extract the
coordinates with the regressive product against e1..e4. -/
def transform_point (transform : Transform) (p : Vector4) : Vector4 :=
  let point := pgaPoint p
  let transformed := gp (gp (revMV transform.toMV) point) transform.toMV
  let assume_normalised_transform :=
    innerP point (oneMV - gp (revMV transform.toMV) transform.toMV)
  let result := transformed + assume_normalised_transform
  ⟨regr result e1v 0, regr result e2v 0, regr result e3v 0, regr result e4v 0⟩

/-- Coordinates of the pure sandwich-product image of a point under a motor.
Stated from the spec's words for claim C1: the image (~T * point) * T with
its four coordinates extracted exactly as transform_point extracts them,
but without the assume-normalised correction term. -/
def sandwich_point_coordinates (transform : Transform) (p : Vector4) : Vector4 :=
  let point := pgaPoint p
  let transformed := gp (gp (revMV transform.toMV) point) transform.toMV
  ⟨regr transformed e1v 0, regr transformed e2v 0, regr transformed e3v 0,
   regr transformed e4v 0⟩

/-- DSL function transform_position: transform_point's body specialised to
the origin (all four coordinates zero). -/
def transform_position (transform : Transform) : Vector4 :=
  transform_point transform ⟨0, 0, 0, 0⟩

/-- Transform::identity. -/
def Transform.identity : Transform := ⟨1, 0, 0, 0, 0, 0, 0, 0, 0, 0, 0, 0, 0, 0, 0, 0⟩

/-- Transform::translation: scalar one and translation components equal to
half the offset. -/
def Transform.translation (offset : Vector4) : Transform :=
  ⟨1, offset.x * 0.5, offset.y * 0.5, offset.z * 0.5, offset.w * 0.5,
   0, 0, 0, 0, 0, 0, 0, 0, 0, 0, 0⟩

/-- Transform::from_rotor: lift a rotor by zero-filling every
translation-grade component. -/
def Transform.from_rotor (rotor : Rotor) : Transform :=
  ⟨rotor.s, 0, 0, 0, 0, rotor.e1e2, rotor.e1e3, rotor.e1e4, rotor.e2e3,
   rotor.e2e4, rotor.e3e4, 0, 0, 0, 0, rotor.e1e2e3e4⟩

/-- Transform::rotor_part: drop every translation-grade component. -/
def Transform.rotor_part (t : Transform) : Rotor :=
  ⟨t.s, t.e1e2, t.e1e3, t.e1e4, t.e2e3, t.e2e4, t.e3e4, t.e1e2e3e4⟩

/-- Transform::position. -/
def Transform.position (t : Transform) : Vector4 := transform_position t

/-- Transform::forward, delegating to the embedded rotor part. -/
def Transform.forward (t : Transform) : Vector4 := Rotor.forward t.rotor_part

/-- Transform::up, delegating to the embedded rotor part. -/
def Transform.up (t : Transform) : Vector4 := Rotor.up t.rotor_part

/-- Transform::right, delegating to the embedded rotor part. -/
def Transform.right (t : Transform) : Vector4 := Rotor.right t.rotor_part

/-- Transform::ana, delegating to the embedded rotor part. -/
def Transform.ana (t : Transform) : Vector4 := Rotor.ana t.rotor_part

/-- Modelled from the spec: Transform::x, used by the rendering crate and
the camera window but absent from the math sources in this snapshot; per
the spec's view-axis table and the camera window labels it is the forward
axis image. -/
def Transform.x (t : Transform) : Vector4 := Transform.forward t

/-- Modelled from the spec: Transform::y is the up axis image. -/
def Transform.y (t : Transform) : Vector4 := Transform.up t

/-- Modelled from the spec: Transform::z is the right axis image. -/
def Transform.z (t : Transform) : Vector4 := Transform.right t

/-- Modelled from the spec: Transform::w is the ana axis image. -/
def Transform.w (t : Transform) : Vector4 := Transform.ana t

/-- The three cross-section view kinds of rendering::ViewAxes. -/
inductive ViewAxes where
  | XYZ
  | XWZ
  | XYW
deriving DecidableEq

/-- The push-constant block rendering::Camera: position and the three
selected axes. -/
structure Camera where
  position : Vector4
  forward : Vector4
  up : Vector4
  right : Vector4

/-- The camera push-constant block assembled by RenderData::prepare: the
four axis images x, y, z, w of the camera transform are computed, the
(forward, up, right) triple is selected by the view kind, and the position
is the transform's position. -/
def prepareCamera (camera_transform : Transform) (view_axes : ViewAxes) : Camera :=
  match view_axes with
  | ViewAxes.XYZ =>
      ⟨camera_transform.position, camera_transform.x, camera_transform.y, camera_transform.z⟩
  | ViewAxes.XWZ =>
      ⟨camera_transform.position, camera_transform.x, camera_transform.w, camera_transform.z⟩
  | ViewAxes.XYW =>
      ⟨camera_transform.position, camera_transform.x, camera_transform.y, camera_transform.w⟩

/-- The GPU record type rendering::HyperSphere from src/rendering/src/lib.rs
(the element type of the storage buffer bound to the ray-tracing pipeline):
a four-float position, then a three-float color, then the radius. -/
structure HyperSphere where
  position : Vector4
  color : Vector3
  radius : ℝ

/-- The f32 sequence of a rendering::HyperSphere record in repr(C) field
order. -/
def HyperSphere.floats (h : HyperSphere) : List ℝ :=
  [h.position.x, h.position.y, h.position.z, h.position.w,
   h.color.x, h.color.y, h.color.z, h.radius]

/-- The record type rendering::objects::Hypersphere from
src/rendering/src/objects.rs: the full sixteen-float Transform, then the
color, then the radius. -/
structure Hypersphere where
  transform : Transform
  color : Vector3
  radius : ℝ

/-- The f32 sequence of a rendering::objects::Hypersphere record in repr(C)
field order. -/
def Hypersphere.floats (h : Hypersphere) : List ℝ :=
  [h.transform.s, h.transform.e0e1, h.transform.e0e2, h.transform.e0e3, h.transform.e0e4,
   h.transform.e1e2, h.transform.e1e3, h.transform.e1e4, h.transform.e2e3,
   h.transform.e2e4, h.transform.e3e4, h.transform.e0e1e2e3, h.transform.e0e1e2e4,
   h.transform.e0e1e3e4, h.transform.e0e2e3e4, h.transform.e1e2e3e4,
   h.color.x, h.color.y, h.color.z, h.radius]

/-- The f32 sequence of a CPU Transform in repr(C) field order. -/
def Transform.floats (t : Transform) : List ℝ :=
  [t.s, t.e0e1, t.e0e2, t.e0e3, t.e0e4, t.e1e2, t.e1e3, t.e1e4, t.e2e3,
   t.e2e4, t.e3e4, t.e0e1e2e3, t.e0e1e2e4, t.e0e1e3e4, t.e0e2e3e4, t.e1e2e3e4]

/-- Byte size of one rendering::HyperSphere record: four f32 position, three
f32 color, one f32 radius, four bytes each, no padding under repr(C). -/
def hyperSphereByteSize : ℕ := 32

/-- Size request of the hyper_spheres_buffer helper: the record count is
floored at one before multiplying by the record size. -/
def hyperSpheresBufferSize (length : ℕ) : ℕ := length.max 1 * hyperSphereByteSize

/-- Capacity evolution of the hypersphere storage buffer across one
RenderState::update_hyper_spheres call with the given record count: the
buffer is replaced by a fresh allocation exactly when the new record
array's byte size exceeds the current capacity. -/
def updateCapacity (capacity length : ℕ) : ℕ :=
  if length * hyperSphereByteSize > capacity then hyperSpheresBufferSize length else capacity

/-- Buffer capacity after a sequence of uploads with the given record
counts, starting from the initial allocation made by
register_rendering_state with length zero. -/
def capacityAfter (counts : List ℕ) : ℕ :=
  counts.foldl updateCapacity (hyperSpheresBufferSize 0)

/-- Observable GPU-queue actions of one update_hyper_spheres call. -/
inductive GpuEvent where
  | growBuffer (newSize : ℕ)
  | writeRecords (byteLength : ℕ)
  | writeCount (count : ℕ)
  | submitEmpty
deriving DecidableEq

/-- Event trace of RenderState::update_hyper_spheres on a slice of the given
record count, together with whether the call panics.  In source order: the
buffer is grown if the record bytes exceed the capacity, the record data is
written to the storage buffer, and only then is the count converted to u32
(panicking if it does not fit) and written to the scene-info buffer, after
which an empty submit flushes the queue. -/
def updateHyperSpheres (capacity length : ℕ) : List GpuEvent × Bool :=
  let growEvents :=
    if length * hyperSphereByteSize > capacity then
      [GpuEvent.growBuffer (hyperSpheresBufferSize length)]
    else []
  if length < 2 ^ 32 then
    (growEvents ++ [GpuEvent.writeRecords (length * hyperSphereByteSize),
      GpuEvent.writeCount length, GpuEvent.submitEmpty], false)
  else
    (growEvents ++ [GpuEvent.writeRecords (length * hyperSphereByteSize)], true)

/-- Observable state of a rendering::RenderTarget: the texture extent plus
generation counters that advance whenever the texture or one of its two
bind groups is reallocated. -/
structure RenderTarget where
  width : ℕ
  height : ℕ
  textureGeneration : ℕ
  writeBindGroupGeneration : ℕ
  sampleBindGroupGeneration : ℕ
deriving DecidableEq

/-- RenderTarget::new: both dimensions are clamped to a minimum of one. -/
def RenderTarget.new (width height : ℕ) : RenderTarget :=
  ⟨width.max 1, height.max 1, 0, 0, 0⟩

/-- RenderTarget::size. -/
def RenderTarget.size (rt : RenderTarget) : ℕ × ℕ := (rt.width, rt.height)

/-- RenderTarget::maybe_resize: clamp both requested dimensions to a minimum
of one, and reallocate the texture and both bind groups exactly when the
clamped size differs from the current texture size. -/
def RenderTarget.maybe_resize (rt : RenderTarget) (width height : ℕ) : RenderTarget :=
  if (width.max 1, height.max 1) ≠ (rt.width, rt.height) then
    ⟨width.max 1, height.max 1, rt.textureGeneration + 1,
     rt.writeBindGroupGeneration + 1, rt.sampleBindGroupGeneration + 1⟩
  else rt


/- Helper lemmas: bilinearity of the structure-constant products, their
action on basis blades, and combinatorial facts about the structure
constants established by finite checking. -/

theorem mulC_add_left (co : ℕ → ℕ → ℤ) (x y z : MV) :
    mulC co (x + y) z = mulC co x z + mulC co y z := by
  funext k
  simp only [mulC, Pi.add_apply]
  rw [← Finset.sum_add_distrib]
  refine Finset.sum_congr rfl fun a _ => ?_
  rw [← Finset.sum_add_distrib]
  refine Finset.sum_congr rfl fun b _ => ?_
  split_ifs <;> ring

theorem mulC_add_right (co : ℕ → ℕ → ℤ) (x y z : MV) :
    mulC co x (y + z) = mulC co x y + mulC co x z := by
  funext k
  simp only [mulC, Pi.add_apply]
  rw [← Finset.sum_add_distrib]
  refine Finset.sum_congr rfl fun a _ => ?_
  rw [← Finset.sum_add_distrib]
  refine Finset.sum_congr rfl fun b _ => ?_
  split_ifs <;> ring

theorem mulC_smul_left (co : ℕ → ℕ → ℤ) (c : ℝ) (x y : MV) :
    mulC co (c • x) y = c • mulC co x y := by
  funext k
  simp only [mulC, Pi.smul_apply, smul_eq_mul]
  rw [Finset.mul_sum]
  refine Finset.sum_congr rfl fun a _ => ?_
  rw [Finset.mul_sum]
  refine Finset.sum_congr rfl fun b _ => ?_
  split_ifs <;> ring

theorem mulC_smul_right (co : ℕ → ℕ → ℤ) (c : ℝ) (x y : MV) :
    mulC co x (c • y) = c • mulC co x y := by
  funext k
  simp only [mulC, Pi.smul_apply, smul_eq_mul]
  rw [Finset.mul_sum]
  refine Finset.sum_congr rfl fun a _ => ?_
  rw [Finset.mul_sum]
  refine Finset.sum_congr rfl fun b _ => ?_
  split_ifs <;> ring

theorem mulC_neg_left (co : ℕ → ℕ → ℤ) (x y : MV) :
    mulC co (-x) y = -(mulC co x y) := by
  funext k
  simp only [mulC, Pi.neg_apply]
  rw [← Finset.sum_neg_distrib]
  refine Finset.sum_congr rfl fun a _ => ?_
  rw [← Finset.sum_neg_distrib]
  refine Finset.sum_congr rfl fun b _ => ?_
  split_ifs <;> ring

theorem mulC_neg_right (co : ℕ → ℕ → ℤ) (x y : MV) :
    mulC co x (-y) = -(mulC co x y) := by
  funext k
  simp only [mulC, Pi.neg_apply]
  rw [← Finset.sum_neg_distrib]
  refine Finset.sum_congr rfl fun a _ => ?_
  rw [← Finset.sum_neg_distrib]
  refine Finset.sum_congr rfl fun b _ => ?_
  split_ifs <;> ring

theorem mulC_sub_left (co : ℕ → ℕ → ℤ) (x y z : MV) :
    mulC co (x - y) z = mulC co x z - mulC co y z := by
  rw [sub_eq_add_neg, mulC_add_left, mulC_neg_left, sub_eq_add_neg]

theorem mulC_sub_right (co : ℕ → ℕ → ℤ) (x y z : MV) :
    mulC co x (y - z) = mulC co x y - mulC co x z := by
  rw [sub_eq_add_neg, mulC_add_right, mulC_neg_right, sub_eq_add_neg]

theorem mulC_zero_left (co : ℕ → ℕ → ℤ) (y : MV) : mulC co 0 y = 0 := by
  funext k
  simp [mulC]

theorem mulC_zero_right (co : ℕ → ℕ → ℤ) (x : MV) : mulC co x 0 = 0 := by
  funext k
  simp [mulC]

theorem mulC_bas_bas (co : ℕ → ℕ → ℤ) (i j : ℕ) (hi : i < 32) (hj : j < 32) :
    mulC co (bas i) (bas j) = ((co i j : ℝ) • bas (i ^^^ j) : MV) := by
  funext k
  simp only [mulC]
  rw [Finset.sum_eq_single i]
  · rw [Finset.sum_eq_single j]
    · rw [Pi.smul_apply, smul_eq_mul]
      by_cases h : i ^^^ j = k
      · simp [bas, ← h]
      · simp only [bas, if_neg h]
        rw [if_neg (fun hh => h hh.symm), mul_zero]
    · intro b _ hb
      simp [bas, if_neg hb]
    · intro h
      exact absurd (Finset.mem_range.mpr hj) h
  · intro a _ ha
    simp [bas, if_neg ha]
  · intro h
    exact absurd (Finset.mem_range.mpr hi) h

theorem revMV_add (x y : MV) : revMV (x + y) = revMV x + revMV y := by
  funext k
  simp only [revMV, Pi.add_apply]
  ring

theorem revMV_smul (c : ℝ) (x : MV) : revMV (c • x) = c • revMV x := by
  funext k
  simp only [revMV, Pi.smul_apply, smul_eq_mul]
  ring

theorem revMV_neg (x : MV) : revMV (-x) = -(revMV x) := by
  funext k
  simp only [revMV, Pi.neg_apply]
  ring

theorem revMV_bas (i : ℕ) : revMV (bas i) = ((revSign i : ℝ) • bas i : MV) := by
  funext k
  simp only [revMV, Pi.smul_apply, smul_eq_mul, bas]
  by_cases h : k = i
  · rw [h]
  · simp [if_neg h]

theorem revSign_mul_self (k : ℕ) : (revSign k : ℝ) * revSign k = 1 := by
  unfold revSign
  split_ifs <;> norm_num

theorem revMV_revMV (x : MV) : revMV (revMV x) = x := by
  funext k
  show (revSign k : ℝ) * ((revSign k : ℝ) * x k) = x k
  rw [← mul_assoc, revSign_mul_self, one_mul]

theorem gradeOf_xor_parity :
    ∀ a b : Fin 32, gradeOf ((a : ℕ) ^^^ (b : ℕ)) % 2 = (gradeOf (a : ℕ) + gradeOf (b : ℕ)) % 2 := by
  decide

theorem revSign_geomCoef :
    ∀ a b : Fin 32,
      revSign ((a : ℕ) ^^^ (b : ℕ)) * geomCoef (a : ℕ) (b : ℕ)
        = geomCoef (b : ℕ) (a : ℕ) * (revSign (a : ℕ) * revSign (b : ℕ)) := by
  decide

theorem xor_lt_32 {a b : ℕ} (ha : a < 32) (hb : b < 32) : a ^^^ b < 32 := by
  have h := Nat.xor_lt_two_pow (n := 5) (by norm_num [ha] : a < 2 ^ 5) (by norm_num [hb] : b < 2 ^ 5)
  norm_num at h
  exact h

theorem mulC_apply_of_ge (co : ℕ → ℕ → ℤ) (x y : MV) (k : ℕ) (hk : 32 ≤ k) :
    mulC co x y k = 0 := by
  unfold mulC
  refine Finset.sum_eq_zero fun a ha => Finset.sum_eq_zero fun b hb => ?_
  rw [if_neg]
  intro hab
  have := xor_lt_32 (Finset.mem_range.mp ha) (Finset.mem_range.mp hb)
  omega

theorem revMV_mulC_geom (x y : MV) :
    revMV (mulC geomCoef x y) = mulC geomCoef (revMV y) (revMV x) := by
  funext k
  by_cases hk : k < 32
  · show (revSign k : ℝ) * mulC geomCoef x y k = _
    simp only [mulC]
    rw [Finset.mul_sum]
    have step :
        ∀ a ∈ Finset.range 32,
          ((revSign k : ℝ) * ∑ b ∈ Finset.range 32,
              if a ^^^ b = k then (geomCoef a b : ℝ) * x a * y b else 0)
            = ∑ b ∈ Finset.range 32,
                if b ^^^ a = k then (geomCoef b a : ℝ) * revMV y b * revMV x a else 0 := by
      intro a ha
      rw [Finset.mul_sum]
      refine Finset.sum_congr rfl fun b hb => ?_
      rw [Nat.xor_comm b a]
      split_ifs with h
      · have ha32 := Finset.mem_range.mp ha
        have hb32 := Finset.mem_range.mp hb
        have hc := revSign_geomCoef ⟨a, ha32⟩ ⟨b, hb32⟩
        simp only at hc
        rw [← h]
        simp only [revMV]
        have hcast : ((revSign (a ^^^ b) * geomCoef a b : ℤ) : ℝ)
            = ((geomCoef b a * (revSign a * revSign b) : ℤ) : ℝ) := by
          rw [hc]
        push_cast at hcast
        linear_combination (x a * y b) * hcast
      · ring
    rw [Finset.sum_congr rfl step]
    exact Finset.sum_comm
  · rw [mulC_apply_of_ge _ _ _ k (by omega)]
    show (revSign k : ℝ) * mulC geomCoef x y k = 0
    rw [mulC_apply_of_ge _ _ _ k (by omega), mul_zero]

theorem gp_rev_self_invariant (x : MV) : revMV (gp (revMV x) x) = gp (revMV x) x := by
  show revMV (mulC geomCoef (revMV x) x) = mulC geomCoef (revMV x) x
  rw [revMV_mulC_geom, revMV_revMV]

theorem gp_rev_self_negsign (x : MV) (k : ℕ) (hsign : revSign k = -1) :
    gp (revMV x) x k = 0 := by
  have h : (revSign k : ℝ) * gp (revMV x) x k = gp (revMV x) x k :=
    congrFun (gp_rev_self_invariant x) k
  rw [hsign] at h
  push_cast at h
  linarith

theorem mulC_even_apply (co : ℕ → ℕ → ℤ) (x y : MV)
    (hx : ∀ j, j < 32 → gradeOf j % 2 = 1 → x j = 0)
    (hy : ∀ j, j < 32 → gradeOf j % 2 = 1 → y j = 0)
    (k : ℕ) (_hk : k < 32) (hkodd : gradeOf k % 2 = 1) :
    mulC co x y k = 0 := by
  unfold mulC
  refine Finset.sum_eq_zero fun a ha => Finset.sum_eq_zero fun b hb => ?_
  have ha32 := Finset.mem_range.mp ha
  have hb32 := Finset.mem_range.mp hb
  split_ifs with hab
  · by_cases hga : gradeOf a % 2 = 1
    · rw [hx a ha32 hga]
      ring
    · by_cases hgb : gradeOf b % 2 = 1
      · rw [hy b hb32 hgb]
        ring
      · exfalso
        have hpar := gradeOf_xor_parity ⟨a, ha32⟩ ⟨b, hb32⟩
        simp only at hpar
        rw [hab] at hpar
        omega
  · rfl

theorem transform_toMV_even (t : Transform) :
    ∀ j, j < 32 → gradeOf j % 2 = 1 → t.toMV j = 0 := by
  intro j hj hodd
  interval_cases j <;>
    simp_all +decide [Transform.toMV, bas, Pi.add_apply, Pi.smul_apply, smul_eq_mul,
      gradeOf]

theorem transform_toMV_rev_even (t : Transform) :
    ∀ j, j < 32 → gradeOf j % 2 = 1 → revMV t.toMV j = 0 := by
  intro j hj hodd
  show (revSign j : ℝ) * t.toMV j = 0
  rw [transform_toMV_even t j hj hodd, mul_zero]

set_option maxHeartbeats 2000000 in
theorem rotor_then_eval (a b : Rotor) :
    rotor_then a b = Rotor.mk
      (a.s*b.s - a.e1e2*b.e1e2 - a.e1e3*b.e1e3 - a.e1e4*b.e1e4
        - a.e2e3*b.e2e3 - a.e2e4*b.e2e4 - a.e3e4*b.e3e4 + a.e1e2e3e4*b.e1e2e3e4)
      (a.s*b.e1e2 + a.e1e2*b.s - a.e1e3*b.e2e3 - a.e1e4*b.e2e4
        + a.e2e3*b.e1e3 + a.e2e4*b.e1e4 - a.e3e4*b.e1e2e3e4 - a.e1e2e3e4*b.e3e4)
      (a.s*b.e1e3 + a.e1e2*b.e2e3 + a.e1e3*b.s - a.e1e4*b.e3e4
        - a.e2e3*b.e1e2 + a.e2e4*b.e1e2e3e4 + a.e3e4*b.e1e4 + a.e1e2e3e4*b.e2e4)
      (a.s*b.e1e4 + a.e1e2*b.e2e4 + a.e1e3*b.e3e4 + a.e1e4*b.s
        - a.e2e3*b.e1e2e3e4 - a.e2e4*b.e1e2 - a.e3e4*b.e1e3 - a.e1e2e3e4*b.e2e3)
      (a.s*b.e2e3 - a.e1e2*b.e1e3 + a.e1e3*b.e1e2 - a.e1e4*b.e1e2e3e4
        + a.e2e3*b.s - a.e2e4*b.e3e4 + a.e3e4*b.e2e4 - a.e1e2e3e4*b.e1e4)
      (a.s*b.e2e4 - a.e1e2*b.e1e4 + a.e1e3*b.e1e2e3e4 + a.e1e4*b.e1e2
        + a.e2e3*b.e3e4 + a.e2e4*b.s - a.e3e4*b.e2e3 + a.e1e2e3e4*b.e1e3)
      (a.s*b.e3e4 - a.e1e2*b.e1e2e3e4 - a.e1e3*b.e1e4 + a.e1e4*b.e1e3
        - a.e2e3*b.e2e4 + a.e2e4*b.e2e3 + a.e3e4*b.s - a.e1e2e3e4*b.e1e2)
      (a.s*b.e1e2e3e4 + a.e1e2*b.e3e4 - a.e1e3*b.e2e4 + a.e1e4*b.e2e3
        + a.e2e3*b.e1e4 - a.e2e4*b.e1e3 + a.e3e4*b.e1e2 + a.e1e2e3e4*b.s) := by
  unfold rotor_then MV.toRotor Rotor.toMV gp
  simp +decide [mulC_add_left, mulC_add_right, mulC_smul_left, mulC_smul_right,
    mulC_neg_left, mulC_neg_right, mulC_bas_bas, geomCoef, smul_smul, bas, Rotor.mk.injEq]
  refine ⟨by ring, by ring, by ring, by ring, by ring, by ring, by ring, by ring⟩

set_option maxHeartbeats 2000000 in
theorem rsm_eval (r : Rotor) :
    rotor_squared_magnitude r = RotorSquaredMagnitude.mk
      (r.s^2 + r.e1e2^2 + r.e1e3^2 + r.e1e4^2 + r.e2e3^2 + r.e2e4^2 + r.e3e4^2 + r.e1e2e3e4^2)
      (2*(r.s*r.e1e2e3e4 - r.e1e2*r.e3e4 + r.e1e3*r.e2e4 - r.e1e4*r.e2e3)) := by
  unfold rotor_squared_magnitude Rotor.toMV gp
  simp +decide [mulC_add_left, mulC_add_right, mulC_smul_left, mulC_smul_right,
    mulC_neg_left, mulC_neg_right, mulC_bas_bas,
    revMV_add, revMV_smul, revMV_bas, geomCoef, revSign, gradeOf,
    smul_smul, bas, RotorSquaredMagnitude.mk.injEq]
  constructor <;> ring

theorem rsm_mul (a b : Rotor) :
    rotor_squared_magnitude (rotor_then a b) = RotorSquaredMagnitude.mk
      ((rotor_squared_magnitude a).s * (rotor_squared_magnitude b).s
        + (rotor_squared_magnitude a).e1e2e3e4 * (rotor_squared_magnitude b).e1e2e3e4)
      ((rotor_squared_magnitude a).s * (rotor_squared_magnitude b).e1e2e3e4
        + (rotor_squared_magnitude a).e1e2e3e4 * (rotor_squared_magnitude b).s) := by
  rw [rotor_then_eval, rsm_eval, rsm_eval, rsm_eval]
  simp only [RotorSquaredMagnitude.mk.injEq]
  constructor <;> ring

set_option maxHeartbeats 1000000 in
theorem rotor_reverse_eval (r : Rotor) :
    rotor_reverse r = Rotor.mk r.s (-r.e1e2) (-r.e1e3) (-r.e1e4) (-r.e2e3) (-r.e2e4)
      (-r.e3e4) r.e1e2e3e4 := by
  unfold rotor_reverse MV.toRotor Rotor.toMV
  simp +decide [revMV_add, revMV_smul, revMV_bas, revSign, gradeOf, smul_smul, bas,
    Pi.add_apply, Pi.smul_apply, smul_eq_mul, Rotor.mk.injEq]

theorem gp_even_apply (x y : MV)
    (hx : ∀ j, j < 32 → gradeOf j % 2 = 1 → x j = 0)
    (hy : ∀ j, j < 32 → gradeOf j % 2 = 1 → y j = 0)
    (k : ℕ) (hk : k < 32) (hkodd : gradeOf k % 2 = 1) :
    gp x y k = 0 :=
  mulC_even_apply geomCoef x y hx hy k hk hkodd

set_option maxHeartbeats 1000000 in
theorem tsm_unit_full (T : Transform)
    (h : transform_squared_magnitude T = TransformSquaredMagnitude.one) :
    ∀ b ∈ Finset.range 32, (oneMV - gp (revMV T.toMV) T.toMV) b = 0 := by
  have h0 : gp (revMV T.toMV) T.toMV 0 = 1 := congrArg TransformSquaredMagnitude.s h
  have h15 : gp (revMV T.toMV) T.toMV 15 = 0 := congrArg TransformSquaredMagnitude.e0e1e2e3 h
  have h23 : gp (revMV T.toMV) T.toMV 23 = 0 := congrArg TransformSquaredMagnitude.e0e1e2e4 h
  have h27 : gp (revMV T.toMV) T.toMV 27 = 0 := congrArg TransformSquaredMagnitude.e0e1e3e4 h
  have h29 : gp (revMV T.toMV) T.toMV 29 = 0 := congrArg TransformSquaredMagnitude.e0e2e3e4 h
  have h30 : gp (revMV T.toMV) T.toMV 30 = 0 := congrArg TransformSquaredMagnitude.e1e2e3e4 h
  intro b hb
  have hb32 := Finset.mem_range.mp hb
  interval_cases b <;>
    first
      | (rw [Pi.sub_apply, h0]; norm_num [oneMV, bas])
      | (rw [Pi.sub_apply, h15]; norm_num [oneMV, bas])
      | (rw [Pi.sub_apply, h23]; norm_num [oneMV, bas])
      | (rw [Pi.sub_apply, h27]; norm_num [oneMV, bas])
      | (rw [Pi.sub_apply, h29]; norm_num [oneMV, bas])
      | (rw [Pi.sub_apply, h30]; norm_num [oneMV, bas])
      | (rw [Pi.sub_apply,
          gp_rev_self_negsign T.toMV _ (by decide)]; norm_num [oneMV, bas])
      | (rw [Pi.sub_apply,
          gp_even_apply (revMV T.toMV) T.toMV (transform_toMV_rev_even T)
            (transform_toMV_even T) _ (by norm_num) (by decide)]; norm_num [oneMV, bas])

/-- C1: for every motor T that is unit-norm, in the sense that the
reverse(T) * T squared-magnitude group equals one (scalar part one, all
quadvector parts zero), and every point p, transform_point returns exactly
the coordinates of the sandwich-product image of p under T: the correction
term point | (1 - reverse(T) * T) vanishes under this precondition, so the
result is exact over exact real arithmetic. -/
theorem transform_point_unit_motor_exact (T : Transform) (p : Vector4)
    (h : transform_squared_magnitude T = TransformSquaredMagnitude.one) :
    transform_point T p = sandwich_point_coordinates T p := by
  have hz : innerP (pgaPoint p) (oneMV - gp (revMV T.toMV) T.toMV) = 0 := by
    funext k
    show mulC innerCoef (pgaPoint p) (oneMV - gp (revMV T.toMV) T.toMV) k = (0 : ℝ)
    unfold mulC
    refine Finset.sum_eq_zero fun a ha => Finset.sum_eq_zero fun b hb => ?_
    rw [tsm_unit_full T h b hb]
    split_ifs <;> ring
  simp only [transform_point, sandwich_point_coordinates]
  rw [hz, add_zero]

/-- Witness for C1: the identity motor satisfies the unit-norm hypothesis,
and transform_point at the identity agrees with the pure sandwich
coordinates at the point (1, 2, 3, 4). -/
theorem transform_point_unit_motor_exact_witness :
    transform_squared_magnitude Transform.identity = TransformSquaredMagnitude.one
      ∧ transform_point Transform.identity ⟨1, 2, 3, 4⟩
          = sandwich_point_coordinates Transform.identity ⟨1, 2, 3, 4⟩ := by
  have h : transform_squared_magnitude Transform.identity = TransformSquaredMagnitude.one := by
    unfold transform_squared_magnitude Transform.identity Transform.toMV gp
    simp +decide [mulC_add_left, mulC_add_right, mulC_smul_left, mulC_smul_right,
      mulC_neg_left, mulC_neg_right, mulC_zero_left, mulC_zero_right, mulC_bas_bas,
      revMV_add, revMV_smul, revMV_bas, revSign, gradeOf, geomCoef, smul_smul, bas,
      TransformSquaredMagnitude.one, TransformSquaredMagnitude.mk.injEq]
  exact ⟨h, transform_point_unit_motor_exact Transform.identity ⟨1, 2, 3, 4⟩ h⟩

theorem cos_half_add (a b : ℝ) :
    Real.cos ((a + b) * 0.5) = Real.cos (a * 0.5) * Real.cos (b * 0.5)
      - Real.sin (a * 0.5) * Real.sin (b * 0.5) := by
  rw [show (a + b) * (0.5 : ℝ) = a * 0.5 + b * 0.5 by ring, Real.cos_add]

theorem sin_half_add (a b : ℝ) :
    Real.sin ((a + b) * 0.5) = Real.sin (a * 0.5) * Real.cos (b * 0.5)
      + Real.cos (a * 0.5) * Real.sin (b * 0.5) := by
  rw [show (a + b) * (0.5 : ℝ) = a * 0.5 + b * 0.5 by ring, Real.sin_add]

theorem sin_cos_half_sq (a : ℝ) :
    Real.sin (a * 0.5) ^ 2 + Real.cos (a * 0.5) ^ 2 = 1 :=
  Real.sin_sq_add_cos_sq (a * 0.5)

/-- C3: validity of a rotor, defined as its reverse(r) * r squared-magnitude
group being one (scalar part one, quadvector part zero), is an invariant of
the rotor operations: the identity is valid, each of the six plane-rotation
constructors produces a valid rotor for every angle, and the composition of
two valid rotors is valid, over exact real arithmetic. -/
theorem rotor_validity_invariant :
    rotor_squared_magnitude Rotor.identity = RotorSquaredMagnitude.one
    ∧ (∀ angle : ℝ,
        rotor_squared_magnitude (Rotor.rotate_xy angle) = RotorSquaredMagnitude.one)
    ∧ (∀ angle : ℝ,
        rotor_squared_magnitude (Rotor.rotate_xz angle) = RotorSquaredMagnitude.one)
    ∧ (∀ angle : ℝ,
        rotor_squared_magnitude (Rotor.rotate_xw angle) = RotorSquaredMagnitude.one)
    ∧ (∀ angle : ℝ,
        rotor_squared_magnitude (Rotor.rotate_yz angle) = RotorSquaredMagnitude.one)
    ∧ (∀ angle : ℝ,
        rotor_squared_magnitude (Rotor.rotate_yw angle) = RotorSquaredMagnitude.one)
    ∧ (∀ angle : ℝ,
        rotor_squared_magnitude (Rotor.rotate_zw angle) = RotorSquaredMagnitude.one)
    ∧ (∀ a b : Rotor,
        rotor_squared_magnitude a = RotorSquaredMagnitude.one →
        rotor_squared_magnitude b = RotorSquaredMagnitude.one →
        rotor_squared_magnitude (rotor_then a b) = RotorSquaredMagnitude.one) := by
  refine ⟨?_, ?_, ?_, ?_, ?_, ?_, ?_, ?_⟩
  · rw [rsm_eval]
    simp only [Rotor.identity, RotorSquaredMagnitude.one, RotorSquaredMagnitude.mk.injEq]
    norm_num
  · intro angle
    rw [rsm_eval]
    simp only [Rotor.rotate_xy, RotorSquaredMagnitude.one, RotorSquaredMagnitude.mk.injEq]
    constructor
    · linear_combination sin_cos_half_sq angle
    · ring
  · intro angle
    rw [rsm_eval]
    simp only [Rotor.rotate_xz, RotorSquaredMagnitude.one, RotorSquaredMagnitude.mk.injEq]
    constructor
    · linear_combination sin_cos_half_sq angle
    · ring
  · intro angle
    rw [rsm_eval]
    simp only [Rotor.rotate_xw, RotorSquaredMagnitude.one, RotorSquaredMagnitude.mk.injEq]
    constructor
    · linear_combination sin_cos_half_sq angle
    · ring
  · intro angle
    rw [rsm_eval]
    simp only [Rotor.rotate_yz, RotorSquaredMagnitude.one, RotorSquaredMagnitude.mk.injEq]
    constructor
    · linear_combination sin_cos_half_sq angle
    · ring
  · intro angle
    rw [rsm_eval]
    simp only [Rotor.rotate_yw, RotorSquaredMagnitude.one, RotorSquaredMagnitude.mk.injEq]
    constructor
    · linear_combination sin_cos_half_sq angle
    · ring
  · intro angle
    rw [rsm_eval]
    simp only [Rotor.rotate_zw, RotorSquaredMagnitude.one, RotorSquaredMagnitude.mk.injEq]
    constructor
    · linear_combination sin_cos_half_sq angle
    · ring
  · intro a b ha hb
    rw [rsm_mul, ha, hb]
    simp only [RotorSquaredMagnitude.one, RotorSquaredMagnitude.mk.injEq]
    norm_num

/-- Witness for C3: the composition clause applied to two identity rotors,
whose validity is the first clause. -/
theorem rotor_validity_invariant_witness :
    rotor_squared_magnitude (rotor_then Rotor.identity Rotor.identity)
      = RotorSquaredMagnitude.one :=
  rotor_validity_invariant.2.2.2.2.2.2.2 Rotor.identity Rotor.identity
    rotor_validity_invariant.1 rotor_validity_invariant.1

/-- C8: for each of the six basis planes, composing two rotations of that
plane adds the angles, and composing a rotation with its opposite yields
the identity, over exact real arithmetic. -/
theorem rotate_plane_angle_sum :
    (∀ a b : ℝ, rotor_then (Rotor.rotate_xy a) (Rotor.rotate_xy b) = Rotor.rotate_xy (a + b))
    ∧ (∀ a b : ℝ, rotor_then (Rotor.rotate_xz a) (Rotor.rotate_xz b) = Rotor.rotate_xz (a + b))
    ∧ (∀ a b : ℝ, rotor_then (Rotor.rotate_xw a) (Rotor.rotate_xw b) = Rotor.rotate_xw (a + b))
    ∧ (∀ a b : ℝ, rotor_then (Rotor.rotate_yz a) (Rotor.rotate_yz b) = Rotor.rotate_yz (a + b))
    ∧ (∀ a b : ℝ, rotor_then (Rotor.rotate_yw a) (Rotor.rotate_yw b) = Rotor.rotate_yw (a + b))
    ∧ (∀ a b : ℝ, rotor_then (Rotor.rotate_zw a) (Rotor.rotate_zw b) = Rotor.rotate_zw (a + b))
    ∧ (∀ t : ℝ, rotor_then (Rotor.rotate_xy t) (Rotor.rotate_xy (-t)) = Rotor.identity)
    ∧ (∀ t : ℝ, rotor_then (Rotor.rotate_xz t) (Rotor.rotate_xz (-t)) = Rotor.identity)
    ∧ (∀ t : ℝ, rotor_then (Rotor.rotate_xw t) (Rotor.rotate_xw (-t)) = Rotor.identity)
    ∧ (∀ t : ℝ, rotor_then (Rotor.rotate_yz t) (Rotor.rotate_yz (-t)) = Rotor.identity)
    ∧ (∀ t : ℝ, rotor_then (Rotor.rotate_yw t) (Rotor.rotate_yw (-t)) = Rotor.identity)
    ∧ (∀ t : ℝ, rotor_then (Rotor.rotate_zw t) (Rotor.rotate_zw (-t)) = Rotor.identity) := by
  have hxy : ∀ a b : ℝ,
      rotor_then (Rotor.rotate_xy a) (Rotor.rotate_xy b) = Rotor.rotate_xy (a + b) := by
    intro a b
    rw [rotor_then_eval]
    simp only [Rotor.rotate_xy, cos_half_add, sin_half_add, Rotor.mk.injEq]
    refine ⟨by ring, by ring, by ring, by ring, by ring, by ring, by ring, by ring⟩
  have hxz : ∀ a b : ℝ,
      rotor_then (Rotor.rotate_xz a) (Rotor.rotate_xz b) = Rotor.rotate_xz (a + b) := by
    intro a b
    rw [rotor_then_eval]
    simp only [Rotor.rotate_xz, cos_half_add, sin_half_add, Rotor.mk.injEq]
    refine ⟨by ring, by ring, by ring, by ring, by ring, by ring, by ring, by ring⟩
  have hxw : ∀ a b : ℝ,
      rotor_then (Rotor.rotate_xw a) (Rotor.rotate_xw b) = Rotor.rotate_xw (a + b) := by
    intro a b
    rw [rotor_then_eval]
    simp only [Rotor.rotate_xw, cos_half_add, sin_half_add, Rotor.mk.injEq]
    refine ⟨by ring, by ring, by ring, by ring, by ring, by ring, by ring, by ring⟩
  have hyz : ∀ a b : ℝ,
      rotor_then (Rotor.rotate_yz a) (Rotor.rotate_yz b) = Rotor.rotate_yz (a + b) := by
    intro a b
    rw [rotor_then_eval]
    simp only [Rotor.rotate_yz, cos_half_add, sin_half_add, Rotor.mk.injEq]
    refine ⟨by ring, by ring, by ring, by ring, by ring, by ring, by ring, by ring⟩
  have hyw : ∀ a b : ℝ,
      rotor_then (Rotor.rotate_yw a) (Rotor.rotate_yw b) = Rotor.rotate_yw (a + b) := by
    intro a b
    rw [rotor_then_eval]
    simp only [Rotor.rotate_yw, cos_half_add, sin_half_add, Rotor.mk.injEq]
    refine ⟨by ring, by ring, by ring, by ring, by ring, by ring, by ring, by ring⟩
  have hzw : ∀ a b : ℝ,
      rotor_then (Rotor.rotate_zw a) (Rotor.rotate_zw b) = Rotor.rotate_zw (a + b) := by
    intro a b
    rw [rotor_then_eval]
    simp only [Rotor.rotate_zw, cos_half_add, sin_half_add, Rotor.mk.injEq]
    refine ⟨by ring, by ring, by ring, by ring, by ring, by ring, by ring, by ring⟩
  have hz0 : ∀ plane : ℝ → Rotor,
      (∀ a b : ℝ, rotor_then (plane a) (plane b) = plane (a + b)) →
      plane 0 = Rotor.identity → ∀ t : ℝ, rotor_then (plane t) (plane (-t)) = Rotor.identity := by
    intro plane hsum h0 t
    rw [hsum t (-t), show t + -t = (0 : ℝ) by ring, h0]
  refine ⟨hxy, hxz, hxw, hyz, hyw, hzw, hz0 _ hxy ?_, hz0 _ hxz ?_, hz0 _ hxw ?_,
    hz0 _ hyz ?_, hz0 _ hyw ?_, hz0 _ hzw ?_⟩ <;>
    simp [Rotor.rotate_xy, Rotor.rotate_xz, Rotor.rotate_xw, Rotor.rotate_yz,
      Rotor.rotate_yw, Rotor.rotate_zw, Rotor.identity]

/-- C9: rotor_reverse negates exactly the six bivector components and keeps
the scalar and quadvector components, and for every unit rotor the reverse
is a two-sided inverse under composition, over exact real arithmetic. -/
theorem rotor_reverse_negates_bivectors_and_inverts :
    (∀ r : Rotor, rotor_reverse r = Rotor.mk r.s (-r.e1e2) (-r.e1e3) (-r.e1e4) (-r.e2e3)
        (-r.e2e4) (-r.e3e4) r.e1e2e3e4)
    ∧ (∀ r : Rotor, rotor_squared_magnitude r = RotorSquaredMagnitude.one →
        rotor_then r (rotor_reverse r) = Rotor.identity
          ∧ rotor_then (rotor_reverse r) r = Rotor.identity) := by
  refine ⟨rotor_reverse_eval, fun r h => ?_⟩
  rw [rsm_eval] at h
  have h0 := congrArg RotorSquaredMagnitude.s h
  have h4 := congrArg RotorSquaredMagnitude.e1e2e3e4 h
  simp only [RotorSquaredMagnitude.one] at h0 h4
  constructor
  · rw [rotor_reverse_eval, rotor_then_eval]
    simp only [Rotor.identity, Rotor.mk.injEq]
    refine ⟨by linear_combination h0, by ring, by ring, by ring, by ring, by ring, by ring,
      by linear_combination h4⟩
  · rw [rotor_reverse_eval, rotor_then_eval]
    simp only [Rotor.identity, Rotor.mk.injEq]
    refine ⟨by linear_combination h0, by ring, by ring, by ring, by ring, by ring, by ring,
      by linear_combination h4⟩

/-- Witness for C9: the inverse clause applied to the identity rotor. -/
theorem rotor_reverse_negates_bivectors_and_inverts_witness :
    rotor_then Rotor.identity (rotor_reverse Rotor.identity) = Rotor.identity
      ∧ rotor_then (rotor_reverse Rotor.identity) Rotor.identity = Rotor.identity := by
  have h : rotor_squared_magnitude Rotor.identity = RotorSquaredMagnitude.one := by
    rw [rsm_eval]
    simp only [Rotor.identity, RotorSquaredMagnitude.one, RotorSquaredMagnitude.mk.injEq]
    norm_num
  exact rotor_reverse_negates_bivectors_and_inverts.2 Rotor.identity h

/-- C10: lifting a rotor into motor space and projecting back is an exact
round trip, and consequently the four axis images of the lifted motor
coincide with the rotor's axis images. -/
theorem from_rotor_round_trip :
    ∀ r : Rotor, (Transform.from_rotor r).rotor_part = r
      ∧ (Transform.from_rotor r).forward = r.forward
      ∧ (Transform.from_rotor r).up = r.up
      ∧ (Transform.from_rotor r).right = r.right
      ∧ (Transform.from_rotor r).ana = r.ana :=
  fun _ => ⟨rfl, rfl, rfl, rfl, rfl⟩

/-- C2: the push-constant block built by the prepare step selects axes by
view kind exactly as the table states; the x, y, z, w accessors are the
forward, up, right and ana axis images, so view XWZ takes the ana axis as
up and view XYW takes the ana axis as right, and position is the
transform's position in all three cases. -/
theorem prepare_view_axis_table :
    ∀ t : Transform,
      prepareCamera t ViewAxes.XYZ = ⟨t.position, t.x, t.y, t.z⟩
      ∧ prepareCamera t ViewAxes.XWZ = ⟨t.position, t.x, t.w, t.z⟩
      ∧ prepareCamera t ViewAxes.XYW = ⟨t.position, t.x, t.y, t.w⟩
      ∧ Transform.x t = Transform.forward t
      ∧ Transform.y t = Transform.up t
      ∧ Transform.z t = Transform.right t
      ∧ Transform.w t = Transform.ana t :=
  fun _ => ⟨rfl, rfl, rfl, rfl, rfl, rfl, rfl⟩

theorem updateCapacity_mono (capacity n : ℕ) : capacity ≤ updateCapacity capacity n := by
  unfold updateCapacity hyperSpheresBufferSize hyperSphereByteSize
  simp only [Nat.max_def]
  split_ifs <;> omega

theorem updateCapacity_ge (capacity n : ℕ) :
    n * hyperSphereByteSize ≤ updateCapacity capacity n := by
  unfold updateCapacity hyperSpheresBufferSize hyperSphereByteSize
  simp only [Nat.max_def]
  split_ifs <;> omega

theorem foldl_updateCapacity_ge_start :
    ∀ (counts : List ℕ) (capacity : ℕ), capacity ≤ counts.foldl updateCapacity capacity := by
  intro counts
  induction counts with
  | nil => intro capacity; simp
  | cons head tail ih =>
      intro capacity
      calc capacity ≤ updateCapacity capacity head := updateCapacity_mono capacity head
        _ ≤ (head :: tail).foldl updateCapacity capacity := by
              simp only [List.foldl_cons]
              exact ih (updateCapacity capacity head)

theorem mem_mul_le_foldl_updateCapacity :
    ∀ (counts : List ℕ) (capacity n : ℕ), n ∈ counts →
      n * hyperSphereByteSize ≤ counts.foldl updateCapacity capacity := by
  intro counts
  induction counts with
  | nil => intro capacity n hn; cases hn
  | cons head tail ih =>
      intro capacity n hn
      rcases List.mem_cons.mp hn with h | h
      · subst h
        calc n * hyperSphereByteSize ≤ updateCapacity capacity n := updateCapacity_ge capacity n
          _ ≤ (n :: tail).foldl updateCapacity capacity := by
                simp only [List.foldl_cons]
                exact foldl_updateCapacity_ge_start tail (updateCapacity capacity n)
      · simp only [List.foldl_cons]
        exact ih (updateCapacity capacity head) n h

/-- C6: over every sequence of hypersphere uploads, the storage buffer
capacity never decreases, after any sequence it is at least each uploaded
count times the record size, it is always at least one record's size
(counts of zero are floored to a one-record allocation), and the buffer is
replaced only when the new record array's byte size exceeds the current
capacity. -/
theorem hypersphere_buffer_growth :
    (∀ capacity n : ℕ, capacity ≤ updateCapacity capacity n)
    ∧ (∀ (counts : List ℕ) (n : ℕ), n ∈ counts →
        n * hyperSphereByteSize ≤ capacityAfter counts)
    ∧ (∀ counts : List ℕ, hyperSphereByteSize ≤ capacityAfter counts)
    ∧ (∀ capacity n : ℕ, n * hyperSphereByteSize ≤ capacity →
        updateCapacity capacity n = capacity) := by
  refine ⟨updateCapacity_mono, ?_, ?_, ?_⟩
  · intro counts n hn
    exact mem_mul_le_foldl_updateCapacity counts (hyperSpheresBufferSize 0) n hn
  · intro counts
    calc hyperSphereByteSize ≤ hyperSpheresBufferSize 0 := by decide
      _ ≤ capacityAfter counts := foldl_updateCapacity_ge_start counts _
  · intro capacity n hle
    unfold updateCapacity
    rw [if_neg]
    omega

/-- Witness for C6: an upload sequence of counts two then one keeps a
capacity of at least two records, and a fitting upload does not replace
the buffer. -/
theorem hypersphere_buffer_growth_witness :
    2 * hyperSphereByteSize ≤ capacityAfter [2, 1] ∧ updateCapacity 64 1 = 64 :=
  ⟨hypersphere_buffer_growth.2.1 [2, 1] 2 (by simp),
   hypersphere_buffer_growth.2.2.2 64 1 (by norm_num [hyperSphereByteSize])⟩

/-- C7: requesting size zero by zero yields internal size one by one,
requesting positive dimensions yields exactly those dimensions, requesting
the current size of a well-formed target is a no-op that leaves the
texture and both bind groups unchanged, and creation clamps both
dimensions to a minimum of one. -/
theorem render_target_resize_behaviour :
    (∀ rt : RenderTarget, (rt.maybe_resize 0 0).size = (1, 1))
    ∧ (∀ (rt : RenderTarget) (w h : ℕ), 0 < w → 0 < h →
        (rt.maybe_resize w h).size = (w, h))
    ∧ (∀ (rt : RenderTarget) (w h : ℕ), 0 < rt.width → 0 < rt.height →
        (w, h) = rt.size → rt.maybe_resize w h = rt)
    ∧ (∀ w h : ℕ, (RenderTarget.new w h).size = (w.max 1, h.max 1)) := by
  refine ⟨?_, ?_, ?_, fun w h => rfl⟩
  · intro rt
    unfold RenderTarget.maybe_resize
    split_ifs with hc
    · rfl
    · rw [not_ne_iff] at hc
      have h1 : rt.width = 1 := by
        have := congrArg Prod.fst hc
        simpa using this.symm
      have h2 : rt.height = 1 := by
        have := congrArg Prod.snd hc
        simpa using this.symm
      simp [RenderTarget.size, h1, h2]
  · intro rt w h hw hh
    unfold RenderTarget.maybe_resize
    have hw1 : w.max 1 = w := Nat.max_eq_left hw
    have hh1 : h.max 1 = h := Nat.max_eq_left hh
    split_ifs with hc
    · simp [RenderTarget.size, hw1, hh1]
    · rw [not_ne_iff, hw1, hh1] at hc
      have h1 : w = rt.width := congrArg Prod.fst hc
      have h2 : h = rt.height := congrArg Prod.snd hc
      simp [RenderTarget.size, h1, h2]
  · intro rt w h hw hh hsize
    unfold RenderTarget.maybe_resize
    have h1 : w = rt.width := congrArg Prod.fst hsize
    have h2 : h = rt.height := congrArg Prod.snd hsize
    rw [if_neg]
    rw [not_ne_iff]
    have hw1 : w.max 1 = w := Nat.max_eq_left (by omega)
    have hh1 : h.max 1 = h := Nat.max_eq_left (by omega)
    rw [hw1, hh1, h1, h2]

/-- Witness for C7: resizing a five by seven target to three by four yields
three by four, and requesting its current size leaves it unchanged. -/
theorem render_target_resize_behaviour_witness :
    ((RenderTarget.new 5 7).maybe_resize 3 4).size = (3, 4)
      ∧ (RenderTarget.new 5 7).maybe_resize 5 7 = RenderTarget.new 5 7 :=
  ⟨render_target_resize_behaviour.2.1 (RenderTarget.new 5 7) 3 4 (by norm_num) (by norm_num),
   render_target_resize_behaviour.2.2.1 (RenderTarget.new 5 7) 5 7 (by decide) (by decide)
     (by decide)⟩

/-- Counterexample for C4: uploading two to the power thirty-two records to
a buffer of the initial capacity panics on the count conversion, but only
after the record data write has already been enqueued: the trace grows the
buffer and writes the record bytes, then fails, so the upload is not
rejected before record data is uploaded. -/
theorem update_overflow_counterexample :
    updateHyperSpheres 32 (2 ^ 32)
      = ([GpuEvent.growBuffer (2 ^ 32 * 32), GpuEvent.writeRecords (2 ^ 32 * 32)], true) := by
  decide

/-- C4 as amended: the count-field overflow is always detected, in that the
call panics exactly when the count does not fit thirty-two bits, and the
count is never silently truncated, in that a count event is written only
for a fitting count and carries it exactly; but the detection happens only
after the record data write has been enqueued, which the trace of every
overflowing call contains. -/
theorem update_overflow_detected_after_record_write :
    ∀ capacity length : ℕ,
      ((updateHyperSpheres capacity length).2 = true ↔ 2 ^ 32 ≤ length)
      ∧ (∀ c : ℕ, GpuEvent.writeCount c ∈ (updateHyperSpheres capacity length).1 →
          c = length ∧ length < 2 ^ 32)
      ∧ (2 ^ 32 ≤ length →
          GpuEvent.writeRecords (length * hyperSphereByteSize)
            ∈ (updateHyperSpheres capacity length).1) := by
  intro capacity length
  simp only [updateHyperSpheres, hyperSphereByteSize]
  split_ifs with hgrow hfit hfit <;> simp_all

/-- Witness for C4: the overflowing upload at the initial capacity has the
record write in its trace, and a small upload does not panic. -/
theorem update_overflow_detected_after_record_write_witness :
    GpuEvent.writeRecords (2 ^ 32 * hyperSphereByteSize)
        ∈ (updateHyperSpheres 32 (2 ^ 32)).1
      ∧ ((updateHyperSpheres 32 7).2 = true ↔ 2 ^ 32 ≤ 7) :=
  ⟨(update_overflow_detected_after_record_write 32 (2 ^ 32)).2.2 (by norm_num),
   (update_overflow_detected_after_record_write 32 7).1⟩

/-- Counterexample for C5: the hypersphere record type actually uploaded to
the ray-tracing pipeline's storage buffer, rendering::HyperSphere, does not
begin with a sixteen-float Transform: its float sequence, here at the zero
record, is too short to have any Transform's floats as a prefix. -/
theorem hypersphere_record_layout_counterexample :
    ¬ ∃ (t : Transform) (rest : List ℝ),
        HyperSphere.floats ⟨⟨0, 0, 0, 0⟩, ⟨0, 0, 0⟩, 0⟩ = Transform.floats t ++ rest := by
  rintro ⟨t, rest, h⟩
  have hlen := congrArg List.length h
  simp [HyperSphere.floats, Transform.floats] at hlen

/-- C5 as amended: the record type rendering::objects::Hypersphere begins
with the object's Transform serialized as its sixteen floats in the CPU
field order, followed by the color and the radius; but the hypersphere
record type bound to the ray-tracing pipeline by RenderState,
rendering::HyperSphere, instead begins with a four-float position followed
by the color and the radius. -/
theorem hypersphere_record_layouts :
    (∀ h : Hypersphere, Hypersphere.floats h
        = Transform.floats h.transform ++ [h.color.x, h.color.y, h.color.z, h.radius])
    ∧ (∀ h : HyperSphere, HyperSphere.floats h
        = [h.position.x, h.position.y, h.position.z, h.position.w,
           h.color.x, h.color.y, h.color.z, h.radius]) :=
  ⟨fun _ => rfl, fun _ => rfl⟩

theorem dualMV_add (x y : MV) : dualMV (x + y) = dualMV x + dualMV y := by
  funext k
  simp only [dualMV, Pi.add_apply]
  ring

theorem dualMV_smul (c : ℝ) (x : MV) : dualMV (c • x) = c • dualMV x := by
  funext k
  simp only [dualMV, Pi.smul_apply, smul_eq_mul]
  ring

theorem dualMV_neg (x : MV) : dualMV (-x) = -(dualMV x) := by
  funext k
  simp only [dualMV, Pi.neg_apply]
  ring

theorem dualMV_bas (i : ℕ) : dualMV (bas i) = ((wedgeCoef i (31 ^^^ i) : ℝ) • bas (31 ^^^ i) : MV) := by
  funext k
  simp only [dualMV, Pi.smul_apply, smul_eq_mul, bas]
  by_cases h : 31 ^^^ k = i
  · have hk : k = 31 ^^^ i := by
      have := congrArg (fun m => 31 ^^^ m) h
      simpa [← Nat.xor_assoc] using this
    subst hk
    simp [h]
  · have hk : ¬ k = 31 ^^^ i := by
      intro hk
      apply h
      subst hk
      have : 31 ^^^ (31 ^^^ i) = i := by
        rw [← Nat.xor_assoc]
        simp
      exact this
    simp [h, hk]

theorem undualMV_add (x y : MV) : undualMV (x + y) = undualMV x + undualMV y := by
  funext k
  simp only [undualMV, Pi.add_apply]
  ring

theorem undualMV_smul (c : ℝ) (x : MV) : undualMV (c • x) = c • undualMV x := by
  funext k
  simp only [undualMV, Pi.smul_apply, smul_eq_mul]
  ring

theorem undualMV_neg (x : MV) : undualMV (-x) = -(undualMV x) := by
  funext k
  simp only [undualMV, Pi.neg_apply]
  ring

theorem undualMV_bas (i : ℕ) :
    undualMV (bas i) = ((wedgeCoef (31 ^^^ i) i : ℝ) • bas (31 ^^^ i) : MV) := by
  funext k
  simp only [undualMV, Pi.smul_apply, smul_eq_mul, bas]
  by_cases h : 31 ^^^ k = i
  · have hk : k = 31 ^^^ i := by
      have := congrArg (fun m => 31 ^^^ m) h
      simpa [← Nat.xor_assoc] using this
    subst hk
    simp [h]
  · have hk : ¬ k = 31 ^^^ i := by
      intro hk
      apply h
      subst hk
      rw [← Nat.xor_assoc]
      simp
    simp [h, hk]

set_option maxHeartbeats 4000000 in
/-- Sanity check of the embedded point pipeline, one of the spec's testable
properties: a pure translation motor moves the origin to its offset, so the
encoding of points, the sandwich product, the duality convention of the
regressive product and the coordinate extraction all fit together as the
source intends. -/
theorem translation_point_sanity (a b c d : ℝ) :
    transform_point (Transform.translation ⟨a, b, c, d⟩) ⟨0, 0, 0, 0⟩ = ⟨a, b, c, d⟩ := by
  unfold transform_point Transform.translation Transform.toMV pgaPoint regr gp wedgeP innerP
    oneMV e0v e1v e2v e3v e4v
  simp +decide [mulC_add_left, mulC_add_right, mulC_smul_left, mulC_smul_right,
    mulC_neg_left, mulC_neg_right, mulC_sub_left, mulC_sub_right,
    mulC_zero_left, mulC_zero_right, mulC_bas_bas,
    revMV_add, revMV_smul, revMV_bas, dualMV_add, dualMV_smul, dualMV_neg, dualMV_bas,
    undualMV_add, undualMV_smul, undualMV_neg, undualMV_bas,
    geomCoef, wedgeCoef, innerCoef, revSign, gradeOf, smul_smul, bas, Vector4.mk.injEq]
  norm_num
  refine ⟨by ring, by ring, by ring, by ring⟩

end FourDR
